import Mathlib

/-!
# Verification of the lazysshrs configuration core

A shallow embedding of the SSH-config parser, include-path resolver and
file mutation engine of the `lazysshrs` repository
(`src/ssh_config.rs`, `src/tui.rs`, `src/config.rs`), together with
theorems settling the specification claims.

Modelling conventions:
* Rust `String` / `&str` is modelled as `List Char` (abbreviated `Str`);
  the claims only involve ASCII data, where Rust's byte indexing and
  `char` iteration coincide with `List Char` operations.
* Rust `char::is_whitespace` is modelled on its ASCII subset (the inputs
  of all claims are ASCII).
* The file system is a partial map from flat path strings to file
  contents; `Path::join` is modelled on the slash-separated flat form.
* Rust panics and propagated `Err` values are both modelled as `none`.
-/

/-- Strings are modelled as lists of characters. -/
abbrev Str := List Char

/-- Conversion from Lean string literals to the `Str` model. -/
def S (s : String) : Str := s.toList

/-- ASCII subset of Rust `char::is_whitespace` (sufficient for all claims). -/
def isWhite (c : Char) : Bool :=
  c = ' ' || c = '\t' || c = '\n' || c = '\r' || c = '\x0b' || c = '\x0c'

/-- Model of Rust `str::trim_start`. -/
def trimLeft : Str → Str
  | [] => []
  | c :: cs => if isWhite c then trimLeft cs else c :: cs

/-- Model of Rust `str::trim_end`. -/
def trimRight : Str → Str
  | [] => []
  | c :: cs =>
    match trimRight cs with
    | [] => if isWhite c then [] else [c]
    | r => c :: r

/-- Model of Rust `str::trim` (strip whitespace from both ends). -/
def trim (s : Str) : Str := trimRight (trimLeft s)

/-- Model of Rust `str::starts_with` for string patterns. -/
def strStartsWith : Str → Str → Bool
  | _, [] => true
  | [], _ :: _ => false
  | c :: cs, p :: ps => c == p && strStartsWith cs ps

/-- Model of Rust `str::contains` for string patterns (substring search). -/
def containsSubstr : Str → Str → Bool
  | [], pat => strStartsWith [] pat
  | c :: cs, pat => strStartsWith (c :: cs) pat || containsSubstr cs pat

/-- Model of Rust `str::to_lowercase` (ASCII fragment). -/
def lowerStr (s : Str) : Str := s.map Char.toLower

/-- Splitter underlying Rust `str::lines`: split at each `'\n'`,
with no final empty piece for a trailing newline (`splitLinesCore "" = []`). -/
def splitLinesCore : Str → List Str
  | [] => []
  | c :: rest =>
    if c = '\n' then [] :: splitLinesCore rest
    else
      match splitLinesCore rest with
      | [] => [[c]]
      | l :: ls => (c :: l) :: ls

/-- Rust `str::lines` removes one trailing `'\r'` from each line. -/
def stripCR (l : Str) : Str := if l.getLast? = some '\r' then l.dropLast else l

/-- Model of Rust `str::lines`. -/
def rustLines (s : Str) : List Str := (splitLinesCore s).map stripCR

/-- Join lines, terminating every line with a single `'\n'`. -/
def joinLines : List Str → Str
  | [] => []
  | l :: ls => l ++ '\n' :: joinLines ls

/-- Split at the first `' '`, returning the pieces before and after it. -/
def breakAtSpace : Str → Option (Str × Str)
  | [] => none
  | c :: cs =>
    if c = ' ' then some ([], cs)
    else
      match breakAtSpace cs with
      | none => none
      | some (a, b) => some (c :: a, b)

/-- Model of Rust `str::splitn(2, ' ')` (as a list of the produced pieces). -/
def splitnTwoSpace (s : Str) : List Str :=
  match breakAtSpace s with
  | none => [s]
  | some (a, b) => [a, b]

/-- Model of Rust `"...".parse::<u16>().ok()`: optional leading `'+'`,
then a non-empty digit string whose value fits in 16 bits. -/
def parseU16 (s : Str) : Option Nat :=
  let t := match s with
           | '+' :: rest => rest
           | _ => s
  if t = [] then none
  else if t.all Char.isDigit then
    let n := t.foldl (fun acc c => acc * 10 + (c.toNat - 48)) 0
    if n ≤ 65535 then some n else none
  else none

/-- Model of Rust `Path::join` on flat slash-separated path strings
(an absolute right operand replaces the left operand). -/
def pjoin (p q : Str) : Str :=
  if strStartsWith q (S "/") then q else p ++ '/' :: q

/-- The final path component (text after the last `'/'`). -/
def fileNameRaw (p : Str) : Str := (p.reverse.takeWhile (fun c => !(c = '/'))).reverse

/-- Model of Rust `Path::file_name` (on the normalized paths this
development constructs). -/
def fileName (p : Str) : Option Str :=
  match fileNameRaw p with
  | [] => none
  | n => some n

/-- Model of Rust `Path::parent` (on the normalized paths this
development constructs): drop the final component and its slash. -/
def parentDir (p : Str) : Str :=
  (p.reverse.drop ((p.reverse.takeWhile (fun c => !(c = '/'))).length + 1)).reverse

/-- The file system: a partial map from paths to file contents.
A path is mapped iff the file exists. -/
def FS := Str → Option Str

/-- Build a file system from an association list of files. -/
def fsOf (l : List (Str × Str)) : FS :=
  fun p => (l.find? (fun e => e.1 = p)).map (fun e => e.2)

/-- Overwrite (or create) one file. -/
def writeFile (fs : FS) (p : Str) (c : Str) : FS :=
  fun q => if q = p then some c else fs q

/-- Model of `SshHost` (src/ssh_config.rs). `other_options` models the
`HashMap` as an association list with overwrite-on-duplicate insert
(the map's iteration order is irrelevant to every claim). -/
structure SshHost where
  name : Str
  hostname : Option Str
  user : Option Str
  port : Option Nat
  identity_file : Option Str
  other_options : List (Str × Str)
  is_separator : Bool
  source_dir : Option Str
deriving DecidableEq

/-- `HashMap::insert`: overwrite the value under an existing key,
else add the binding. -/
def assocInsert (m : List (Str × Str)) (k v : Str) : List (Str × Str) :=
  if m.any (fun e => e.1 = k) then
    m.map (fun e => if e.1 = k then (k, v) else e)
  else m ++ [(k, v)]

/-- A fresh accumulator opened by a `host` directive (src/ssh_config.rs:92). -/
def newHost (value : Str) (src : Option Str) : SshHost :=
  { name := value, hostname := none, user := none, port := none,
    identity_file := none, other_options := [], is_separator := false,
    source_dir := src }

/-- The separator entry emitted for a resolved include (src/ssh_config.rs:73). -/
def sepHost (dirName : Str) : SshHost :=
  { name := S "── " ++ dirName ++ S " ──", hostname := none, user := none,
    port := none, identity_file := none, other_options := [],
    is_separator := true, source_dir := some dirName }

/-- Flush the open accumulator into the result sequence (push at the end). -/
def flush (hosts : List SshHost) (cur : Option SshHost) : List SshHost :=
  match cur with
  | some h => hosts ++ [h]
  | none => hosts

/-- Model of `SshConfig::resolve_include_path` (src/ssh_config.rs:138).
The code tests `starts_with('~')` (a single character, not `"~/"`) and
then slices `include_value[2..]`, which panics when the value is shorter
than two characters; the panic is modelled as `none`.  A missing home
directory is ignored: the model takes `home` as a given path. -/
def resolve_include_path (home base arg : Str) : Option Str :=
  if strStartsWith arg (S "~") then
    if 2 ≤ arg.length then some (pjoin home (arg.drop 2)) else none
  else if strStartsWith arg (S "/") then some arg
  else some (pjoin base arg)

/-- One file's line loop of `SshConfig::parse` (src/ssh_config.rs:42),
parameterized by `loadSub`, the loader used for `Include` targets
(`Self::load_file` in the code; a fuel-indexed instance below).
Errors propagated by `?` are modelled as `none`. -/
def parse (loadSub : Str → Option (List SshHost)) (fs : FS) (home : Str)
    (base : Str) (src : Option Str) :
    List Str → List SshHost → Option SshHost → Option (List SshHost)
  | [], hosts, cur => some (flush hosts cur)
  | rawLine :: ls, hosts, cur =>
    let line := trim rawLine
    if line = [] then parse loadSub fs home base src ls hosts cur
    else if strStartsWith line (S "#") then parse loadSub fs home base src ls hosts cur
    else
      match splitnTwoSpace line with
      | [k, restv] =>
        let key := lowerStr k
        let value := trim restv
        if key = S "include" then
          let hosts1 := flush hosts cur
          match resolve_include_path home base value with
          | none => none
          | some incl =>
            if (fs incl).isSome then
              let dirName := (fileName (parentDir incl)).getD (S "unknown")
              match loadSub incl with
              | none => none
              | some sub =>
                parse loadSub fs home base src ls (hosts1 ++ sepHost dirName :: sub) none
            else parse loadSub fs home base src ls hosts1 none
        else if key = S "host" then
          parse loadSub fs home base src ls (flush hosts cur) (some (newHost value src))
        else if key = S "hostname" then
          parse loadSub fs home base src ls hosts
            (cur.map (fun h => { h with hostname := some value }))
        else if key = S "user" then
          parse loadSub fs home base src ls hosts
            (cur.map (fun h => { h with user := some value }))
        else if key = S "port" then
          parse loadSub fs home base src ls hosts
            (cur.map (fun h => { h with port := parseU16 value }))
        else if key = S "identityfile" then
          parse loadSub fs home base src ls hosts
            (cur.map (fun h => { h with identity_file := some value }))
        else
          parse loadSub fs home base src ls hosts
            (cur.map (fun h => { h with other_options := assocInsert h.other_options key value }))
      | _ => parse loadSub fs home base src ls hosts cur

/-- Model of `SshConfig::load_file` (src/ssh_config.rs:33), fuel-indexed to
bound the unguarded include recursion (the code recurses until the call
stack is exhausted on cyclic includes; exhausted fuel is modelled as
`none`, like any other failure).  Reading the file yields its content or
`none`; the parse runs with base dir = the file's parent and source label
= the parent directory's name. -/
def load_file (fs : FS) (home : Str) (fuel : Nat) : Str → Option (List SshHost) :=
  Nat.rec (motive := fun _ => Str → Option (List SshHost))
    (fun _ => none)
    (fun _ ih path =>
      match fs path with
      | none => none
      | some content =>
        parse ih fs home (parentDir path) (fileName (parentDir path))
          (rustLines content) [] none)
    fuel

/-- Model of `SshConfig::load_from_workdir` (src/ssh_config.rs:28). -/
def load_from_workdir (fuel : Nat) (fs : FS) (home : Str) (workdir : Str) :
    Option (List SshHost) :=
  load_file fs home fuel (pjoin workdir (S "config"))

theorem load_file_zero (fs : FS) (home : Str) (path : Str) :
    load_file fs home 0 path = none := rfl

theorem load_file_succ (fs : FS) (home : Str) (n : Nat) (path : Str) :
    load_file fs home (n + 1) path =
      match fs path with
      | none => none
      | some content =>
        parse (load_file fs home n) fs home (parentDir path)
          (fileName (parentDir path)) (rustLines content) [] none := rfl

/-- A one-file workdir used to exercise the parser on concrete inputs:
the root config file `/w/config` holds `c`; no other file exists. -/
def demoFS (c : String) : FS :=
  fun p => if p = S "/w/config" then some (S c) else none

/-- Parse a single concrete root file at workdir `/w` (fuel 2 is enough
for the include-free demo inputs). -/
def parseDemo (c : String) : Option (List SshHost) :=
  load_file (demoFS c) (S "/home/u") 2 (S "/w/config")

/-- The per-folder config file `workdir/<folder>/config` targeted by
`App::save_host` (src/tui.rs:406). -/
def targetPath (w f : Str) : Str := pjoin (pjoin w f) (S "config")

/-- The root config file `workdir/config`
(`AppConfig::get_main_config_path`, src/config.rs:51). -/
def rootPath (w : Str) : Str := pjoin w (S "config")

/-- The root-registration line `Include <absolute path>` (src/tui.rs:453). -/
def includeLine (p : Str) : Str := S "Include " ++ p

/-- Model of `App::add_include_to_main_config` (src/tui.rs:447): if the
root file exists and its content has `includeLine` as a substring
(`str::contains`), do nothing; else rewrite it with the include line
first, then — only for non-empty prior content — a blank line and the
prior content; if the root file does not exist, create it holding just
the include line. -/
def add_include_to_main_config (fs : FS) (w : Str) (newPath : Str) : FS :=
  let line := includeLine newPath
  match fs (rootPath w) with
  | some content =>
    if containsSubstr content line then fs
    else writeFile fs (rootPath w)
      (line ++ '\n' :: (if content = [] then [] else '\n' :: content))
  | none => writeFile fs (rootPath w) (line ++ ['\n'])

/-- The host block written by `App::save_host` (src/tui.rs:425): `Host`,
indented `Hostname` and `User` always; indented `Port`, `IdentityFile`,
`LocalForward` only when non-empty. -/
def hostBlock (a h u p i lf : Str) : Str :=
  S "Host " ++ a ++ S "\n    Hostname " ++ h ++ S "\n    User " ++ u ++ ['\n']
    ++ (if p = [] then [] else S "    Port " ++ p ++ ['\n'])
    ++ (if i = [] then [] else S "    IdentityFile " ++ i ++ ['\n'])
    ++ (if lf = [] then [] else S "    LocalForward " ++ lf ++ ['\n'])

/-- Appending to the target file: one separating blank line first iff the
file already had non-zero length (src/tui.rs:421). -/
def appendContent (prev block : Str) : Str :=
  prev ++ (if prev = [] then [] else ['\n']) ++ block

/-- Model of `App::save_host` (src/tui.rs:402): `is_new_file` is decided
by existence only (`!config_path.exists()`), before any write; the block
is appended; registration runs only for a new file. -/
def save_host (fs : FS) (w f a h u p i lf : Str) : FS :=
  let tp := targetPath w f
  let isNew := (fs tp).isNone
  let fs1 := writeFile fs tp (appendContent ((fs tp).getD []) (hostBlock a h u p i lf))
  if isNew then add_include_to_main_config fs1 w tp else fs1

/-- Target-file routing of `App::remove_host_from_file` (src/tui.rs:676):
a missing source label defaults to `"ssh"`; the literal label `"ssh"`
routes to the root config file, any other label to
`workdir/<label>/config`. -/
def remove_target (w : Str) (sd : Option Str) : Str :=
  let d := sd.getD (S "ssh")
  if d = S "ssh" then rootPath w else pjoin (pjoin w d) (S "config")

/-- The line-rebuilding loop of `App::remove_host_from_file`
(src/tui.rs:689), with the inner skip loop encoded as the `skipping`
flag: in skip mode, lines are dropped until one whose trimmed form
starts with `Host ` is copied through and normal mode resumes; in normal
mode, a line trimming exactly to `Host <name>` enters skip mode and
every other line is copied through followed by one `'\n'`. -/
def removeGo (name : Str) : Bool → List Str → Str
  | _, [] => []
  | true, l :: ls =>
    if strStartsWith (trim l) (S "Host ") then l ++ '\n' :: removeGo name false ls
    else removeGo name true ls
  | false, l :: ls =>
    if strStartsWith (trim l) (S "Host ") then
      if trim l = S "Host " ++ name then removeGo name true ls
      else l ++ '\n' :: removeGo name false ls
    else l ++ '\n' :: removeGo name false ls

/-- Content-level effect of `App::remove_host_from_file` on the file it
rewrites. -/
def removeHost (name content : Str) : Str := removeGo name false (rustLines content)

/-- Model of `App::remove_host_from_file` (src/tui.rs:672): route to the
target file from the entry's source label; if it exists, rewrite it with
the matched host block removed; otherwise do nothing. -/
def remove_host_from_file (fs : FS) (w : Str) (sd : Option Str) (name : Str) : FS :=
  let p := remove_target w sd
  match fs p with
  | none => fs
  | some content => writeFile fs p (removeHost name content)

/-- Append a host (no optional fields) and then remove it by name, as in
the round-trip property: `save_host` followed by `remove_host_from_file`
with the folder as the entry's source label. -/
def roundTrip (fs : FS) (w f a h u : Str) : FS :=
  remove_host_from_file (save_host fs w f a h u [] [] []) w (some f) a

/-- Model of `Iterator::position`. -/
def positionIdx (p : SshHost → Bool) : List SshHost → Option Nat
  | [] => none
  | a :: l => if p a then some 0 else (positionIdx p l).map (fun i => i + 1)

/-- The initial list selection seeded by `App::new` (src/tui.rs:64): only
a non-empty entry sequence gets a selection — the index of the first
non-separator entry, defaulting to 0; an empty sequence keeps the
default `ListState` (no selection). -/
def initialSelection (hosts : List SshHost) : Option Nat :=
  if hosts.isEmpty then none
  else some ((positionIdx (fun h => !h.is_separator) hosts).getD 0)

/-- The port-range invariant of parsed entries: a set port fits `u16`. -/
def portOk (h : SshHost) : Prop := ∀ p, h.port = some p → p ≤ 65535

/-- Spec-side formalization of claim C3's description of remove-by-name,
written from the claim's words: scanning top to bottom, a line whose
trimmed form exactly equals `Host <name>` is dropped together with all
following lines up to but not including the next line that starts
(trimmed) with `Host ` — that line is kept and processing resumes from
it — or to end of file if none exists; every non-matched line is copied
through unchanged. -/
def removeSpecLines (name : Str) : List Str → List Str
  | [] => []
  | l :: ls =>
    if trim l = S "Host " ++ name then
      match hdw : ls.dropWhile (fun l2 => !strStartsWith (trim l2) (S "Host ")) with
      | [] => []
      | keep :: rest => keep :: removeSpecLines name rest
    else l :: removeSpecLines name ls
termination_by ls => ls.length
decreasing_by
  · have hle : (ls.dropWhile (fun l2 => !strStartsWith (trim l2) (S "Host "))).length ≤ ls.length :=
      (List.dropWhile_suffix _).length_le
    rw [hdw] at hle
    simp only [List.length_cons] at hle ⊢
    omega
  · simp only [List.length_cons]
    omega

/-- Content-level spec-side remove-by-name: rebuild the kept lines, each
terminated by a single newline. -/
def removeHostSpec (name content : Str) : Str :=
  joinLines (removeSpecLines name (rustLines content))

/-- Workdir `/home/u/.ssh` whose root config file defines one host. -/
def fsC1 : FS := fsOf [(S "/home/u/.ssh/config", S "Host a\nHostname h\n")]

/-- A workdir `/w` with an existing zero-byte folder file `f/config`. -/
def fsC4 : FS := fsOf [(S "/w/f/config", [])]

/-- A workdir `/w` with a populated folder file `f/config` and an empty
root file (which does not contain any `Include` line). -/
def fsC5 : FS :=
  fsOf [(S "/w/f/config", S "Host a\n    Hostname h\n    User u\n"),
        (S "/w/config", [])]

/-- A workdir `/w` whose root file already contains the registration line
for `/w/f/config`. -/
def fsC5reg : FS := fsOf [(S "/w/config", S "Include /w/f/config\n")]

/-- A workdir `/w` with a non-empty, newline-terminated folder file
`f/config` and a registered root file. -/
def fsC2 : FS :=
  fsOf [(S "/w/f/config", S "Host y\nHostname b\n"),
        (S "/w/config", S "Include /w/f/config\n")]

/-- A workdir `/w` with an empty folder file `f/config`. -/
def fsC2e : FS := fsOf [(S "/w/f/config", [])]

/-- The entry parsed from `parseDemo "Host a\nPort 22"`. -/
def demoHost22 : SshHost :=
  { name := S "a", hostname := none, user := none, port := some 22,
    identity_file := none, other_options := [], is_separator := false,
    source_dir := some (S "w") }

/-- A separator-only entry used to exercise the selection seeding. -/
def demoSep : SshHost := sepHost (S "d")

/-- A plain host entry used to exercise the selection seeding. -/
def demoPlainHost : SshHost := newHost (S "a") none

theorem strStartsWith_nil (s : Str) : strStartsWith s [] = true := by
  cases s <;> rfl

theorem strStartsWith_cons_cons (c : Char) (cs : Str) (p : Char) (ps : Str) :
    strStartsWith (c :: cs) (p :: ps) = (c == p && strStartsWith cs ps) := rfl

theorem S_tilde : S "~" = ['~'] := by decide

theorem S_slash : S "/" = ['/'] := by decide

theorem strStartsWith_append_self (p r : Str) : strStartsWith (p ++ r) p = true := by
  induction p with
  | nil => simp [strStartsWith_nil]
  | cons c cs ih => simp [strStartsWith, ih]

theorem containsSubstr_of_append (pat r : Str) :
    containsSubstr (pat ++ r) pat = true := by
  cases hp : pat ++ r with
  | nil => simp [containsSubstr, hp ▸ strStartsWith_append_self pat r]
  | cons c cs => simp [containsSubstr, hp ▸ strStartsWith_append_self pat r]

theorem writeFile_same (fs : FS) (p c : Str) : writeFile fs p c p = some c := by
  simp [writeFile]

theorem writeFile_other (fs : FS) (p c q : Str) (hq : q ≠ p) :
    writeFile fs p c q = fs q := by
  simp [writeFile, hq]

theorem breakAtSpace_no_space (s : Str) (hs : ' ' ∉ s) : breakAtSpace s = none := by
  induction s with
  | nil => rfl
  | cons c cs ih =>
    have hc : ¬ c = ' ' := fun h => hs (h ▸ List.mem_cons_self c cs)
    have hcs : ' ' ∉ cs := fun h => hs (List.mem_cons_of_mem c h)
    simp [breakAtSpace, hc, ih hcs]

theorem breakAtSpace_first (k v : Str) (hk : ' ' ∉ k) :
    breakAtSpace (k ++ ' ' :: v) = some (k, v) := by
  induction k with
  | nil => rfl
  | cons c cs ih =>
    have hc : ¬ c = ' ' := fun h => hk (h ▸ List.mem_cons_self c cs)
    have hcs : ' ' ∉ cs := fun h => hk (List.mem_cons_of_mem c h)
    simp [breakAtSpace, hc, ih hcs]

theorem positionIdx_none_of_all (p : SshHost → Bool) (hs : List SshHost)
    (h : ∀ x ∈ hs, p x = false) : positionIdx p hs = none := by
  induction hs with
  | nil => rfl
  | cons a l ih =>
    have ha : p a = false := h a (List.mem_cons_self a l)
    have hl : ∀ x ∈ l, p x = false := fun x hx => h x (List.mem_cons_of_mem a hx)
    simp [positionIdx, ha, ih hl]

theorem positionIdx_ne_nil (p : SshHost → Bool) (hs : List SshHost) (i : Nat)
    (h : positionIdx p hs = some i) : hs ≠ [] := by
  intro hnil
  subst hnil
  simp [positionIdx] at h

theorem save_host_of_exists (fs : FS) (w f a h u p i lf : Str) (c : Str)
    (hc : fs (targetPath w f) = some c) :
    save_host fs w f a h u p i lf =
      writeFile fs (targetPath w f) (appendContent c (hostBlock a h u p i lf)) := by
  simp [save_host, hc]

theorem save_host_of_missing (fs : FS) (w f a h u p i lf : Str)
    (hn : fs (targetPath w f) = none) :
    save_host fs w f a h u p i lf =
      add_include_to_main_config
        (writeFile fs (targetPath w f) (appendContent [] (hostBlock a h u p i lf)))
        w (targetPath w f) := by
  simp [save_host, hn]

/-- Claim C1 (code bug): entries parsed directly from the root config
file do NOT carry an empty source label — `load_file` stamps them with
the workdir's own directory name (`path.parent().file_name()`, here
`".ssh"`), so remove-by-name routes them to
`workdir/.ssh/config`, not to the root config file, although
`remove_host_from_file`'s own `"ssh"` default shows root entries were
meant to reach the root file. -/
theorem c1_root_label_bug :
    (load_from_workdir 1 fsC1 (S "/home/u") (S "/home/u/.ssh")).map
        (fun hs => hs.map SshHost.source_dir) = some [some (S ".ssh")]
    ∧ remove_target (S "/home/u/.ssh") (some (S ".ssh")) = S "/home/u/.ssh/.ssh/config"
    ∧ S "/home/u/.ssh/.ssh/config" ≠ rootPath (S "/home/u/.ssh") := by
  refine ⟨by decide, by decide, by decide⟩

/-- Claim C4, counterexample: appending into an existing zero-byte folder
config file does NOT trigger root-file registration — the code decides
`is_new_file` by existence only, so the root file is still absent after
the append. -/
theorem c4_zero_byte_counterexample :
    fsC4 (S "/w/f/config") = some []
    ∧ save_host fsC4 (S "/w") (S "f") (S "a") (S "h") (S "u") [] [] []
        (S "/w/config") = none := by
  refine ⟨by decide, by decide⟩

/-- Claim C4, amended: the append operation classifies the target file as
new — and therefore performs root-file registration — exactly when the
file does not exist before the operation; an existing file is appended
to in place (zero-byte files included, with no separating blank line)
and registration is skipped. -/
theorem c4_is_new_amended (fs : FS) (w f a h u p i lf : Str) :
    (fs (targetPath w f) = none →
      save_host fs w f a h u p i lf =
        add_include_to_main_config
          (writeFile fs (targetPath w f) (appendContent [] (hostBlock a h u p i lf)))
          w (targetPath w f))
    ∧ (∀ c, fs (targetPath w f) = some c →
        save_host fs w f a h u p i lf =
          writeFile fs (targetPath w f) (appendContent c (hostBlock a h u p i lf))) := by
  constructor
  · intro hn
    exact save_host_of_missing fs w f a h u p i lf hn
  · intro c hc
    exact save_host_of_exists fs w f a h u p i lf c hc

/-- Claim C4, witness for the amended theorem at a concrete input. -/
theorem c4_is_new_amended_witness :
    save_host fsC4 (S "/w") (S "f") (S "a") (S "h") (S "u") [] [] [] =
      writeFile fsC4 (targetPath (S "/w") (S "f"))
        (appendContent [] (hostBlock (S "a") (S "h") (S "u") [] [] [])) :=
  (c4_is_new_amended fsC4 (S "/w") (S "f") (S "a") (S "h") (S "u") [] [] []).2
    [] (by decide)

/-- Claim C5, counterexample: a subsequent append into an
already-populated folder whose `Include` line is missing from the root
file does NOT rewrite the root file — registration is skipped entirely
because the folder file exists, so the (empty) root file stays empty and
does not start with the include line. -/
theorem c5_counterexample :
    fsC5 (S "/w/config") = some []
    ∧ containsSubstr [] (includeLine (S "/w/f/config")) = false
    ∧ save_host fsC5 (S "/w") (S "f") (S "b") (S "h2") (S "u2") [] [] []
        (S "/w/config") = some []
    ∧ strStartsWith [] (includeLine (S "/w/f/config")) = false := by
  refine ⟨by decide, by decide, by decide, by decide⟩

/-- Claim C5, amended: registration runs only when the folder file is
newly created, and is then idempotent and once-per-path: a root file
whose content has the include line as a substring is left byte-for-byte
unchanged; otherwise an existing root file is rewritten with the include
line first, then — only for non-empty prior content — one blank line and
the prior content unchanged; a missing root file is created holding just
the include line.  Appending into an existing folder file never touches
the root file, and registration is idempotent. -/
theorem c5_registration_amended (fs : FS) (w p : Str) :
    ((∀ c, fs (rootPath w) = some c → containsSubstr c (includeLine p) = true →
        add_include_to_main_config fs w p = fs)
    ∧ (∀ c, fs (rootPath w) = some c → containsSubstr c (includeLine p) = false →
        add_include_to_main_config fs w p =
          writeFile fs (rootPath w)
            (includeLine p ++ '\n' :: (if c = [] then [] else '\n' :: c)))
    ∧ (fs (rootPath w) = none →
        add_include_to_main_config fs w p =
          writeFile fs (rootPath w) (includeLine p ++ ['\n']))
    ∧ (∀ f a h u pp i lf c, fs (targetPath w f) = some c →
        targetPath w f ≠ rootPath w →
        save_host fs w f a h u pp i lf (rootPath w) = fs (rootPath w))
    ∧ add_include_to_main_config (add_include_to_main_config fs w p) w p =
        add_include_to_main_config fs w p) := by
  refine ⟨?_, ?_, ?_, ?_, ?_⟩
  · intro c hc hcont
    simp [add_include_to_main_config, hc, hcont]
  · intro c hc hcont
    simp [add_include_to_main_config, hc, hcont]
  · intro hn
    simp [add_include_to_main_config, hn]
  · intro f a h u pp i lf c hc hne
    rw [save_host_of_exists fs w f a h u pp i lf c hc]
    exact writeFile_other fs (targetPath w f) _ (rootPath w) hne.symm
  · cases hroot : fs (rootPath w) with
    | none =>
      simp [add_include_to_main_config, hroot, writeFile_same,
        containsSubstr_of_append]
    | some c =>
      by_cases hcont : containsSubstr c (includeLine p) = true
      · simp [add_include_to_main_config, hroot, hcont]
      · have hcont2 : containsSubstr c (includeLine p) = false :=
          Bool.eq_false_iff.mpr hcont
        simp [add_include_to_main_config, hroot, hcont2, writeFile_same,
          containsSubstr_of_append]

/-- Claim C5, witness for the amended theorem: a root file already
holding the registration line is left unchanged by registration. -/
theorem c5_registration_amended_witness :
    add_include_to_main_config fsC5reg (S "/w") (S "/w/f/config") = fsC5reg :=
  (c5_registration_amended fsC5reg (S "/w") (S "/w/f/config")).1
    (S "Include /w/f/config\n") (by decide) (by decide)

/-- Claim C6, counterexample: a `Port` directive separated from its value
by a tab is not parsed like one separated by a space — the split is at
the first space character, so the tab line is dropped and the port stays
unset. -/
theorem c6_tab_counterexample :
    (parseDemo "Host a\nPort\t22").map (fun hs => hs.map SshHost.port) = some [none]
    ∧ (parseDemo "Host a\nPort 22").map (fun hs => hs.map SshHost.port) = some [some 22]
    ∧ parseDemo "Host a\nPort\t22" ≠ parseDemo "Host a\nPort 22" := by
  refine ⟨by decide, by decide, by decide⟩

/-- Claim C6, amended: each surviving line splits into keyword and value
at the first SPACE character (`splitn(2, ' ')`), the keyword is
lower-cased and the value trimmed (so runs of spaces collapse like a
single space), but a trimmed line containing no space at all — e.g. a
keyword and value separated only by a tab — is ignored entirely rather
than parsed. -/
theorem c6_split_amended :
    (∀ k v : Str, ' ' ∉ k → splitnTwoSpace (k ++ ' ' :: v) = [k, v])
    ∧ (∀ s : Str, ' ' ∉ s → splitnTwoSpace s = [s])
    ∧ parseDemo "Host a\nPort\t22" = parseDemo "Host a"
    ∧ (parseDemo "Host a\nPort  22").map (fun hs => hs.map SshHost.port) =
        some [some 22] := by
  refine ⟨?_, ?_, by decide, by decide⟩
  · intro k v hk
    simp [splitnTwoSpace, breakAtSpace_first k v hk]
  · intro s hs
    simp [splitnTwoSpace, breakAtSpace_no_space s hs]

/-- Claim C6, witness for the amended theorem at a concrete input. -/
theorem c6_split_amended_witness :
    splitnTwoSpace (S "Port" ++ ' ' :: S "22") = [S "Port", S "22"] :=
  c6_split_amended.1 (S "Port") (S "22") (by decide)

/-- Claim C7, counterexample: include-argument resolution is not total
and does not follow the claimed `~/` rule — the code tests the single
character `'~'` and slices off two characters, so the argument `"~"`
panics (no result) and `"~a"` resolves under the home directory instead
of relative to the base directory. -/
theorem c7_tilde_counterexample :
    resolve_include_path (S "/home/u") (S "/base") (S "~") = none
    ∧ resolve_include_path (S "/home/u") (S "/base") (S "~a") = some (S "/home/u/")
    ∧ some (S "/home/u/") ≠ some (pjoin (S "/base") (S "~a")) := by
  refine ⟨by decide, by decide, by decide⟩

/-- Claim C7, amended: checked in order, an argument beginning with the
character `'~'` (not the two-character prefix `"~/"`) resolves under the
home directory using the remainder after the first two characters — and
for the one-character argument `"~"` the byte-slice panics, so there is
no result; otherwise an argument beginning with `'/'` is absolute;
otherwise it resolves relative to the base directory. -/
theorem c7_resolve_amended (home base arg : Str) :
    (∀ c t, arg = '~' :: c :: t →
      resolve_include_path home base arg = some (pjoin home t))
    ∧ (arg = ['~'] → resolve_include_path home base arg = none)
    ∧ (arg.head? ≠ some '~' → arg.head? = some '/' →
        resolve_include_path home base arg = some arg)
    ∧ (arg.head? ≠ some '~' → arg.head? ≠ some '/' →
        resolve_include_path home base arg = some (pjoin base arg)) := by
  refine ⟨?_, ?_, ?_, ?_⟩
  · rintro c t rfl
    have h1 : strStartsWith ('~' :: c :: t) (S "~") = true := by
      rw [S_tilde, strStartsWith_cons_cons, strStartsWith_nil]
      decide
    simp [resolve_include_path, h1]
  · rintro rfl
    have h1 : strStartsWith ['~'] (S "~") = true := by decide
    simp [resolve_include_path, h1]
  · intro h1 h2
    cases arg with
    | nil => simp at h2
    | cons c cs =>
      simp only [List.head?_cons, Option.some.injEq] at h1 h2
      subst h2
      have e1 : strStartsWith ('/' :: cs) (S "~") = false := by
        rw [S_tilde, strStartsWith_cons_cons, strStartsWith_nil]
        decide
      have e2 : strStartsWith ('/' :: cs) (S "/") = true := by
        rw [S_slash, strStartsWith_cons_cons, strStartsWith_nil]
        decide
      simp [resolve_include_path, e1, e2]
  · intro h1 h2
    cases arg with
    | nil =>
      have e1 : strStartsWith [] (S "~") = false := by rw [S_tilde]; rfl
      have e2 : strStartsWith [] (S "/") = false := by rw [S_slash]; rfl
      simp [resolve_include_path, e1, e2]
    | cons c cs =>
      simp only [List.head?_cons] at h1 h2
      have h1b : ¬ c = '~' := fun hc => h1 (by rw [hc])
      have h2b : ¬ c = '/' := fun hc => h2 (by rw [hc])
      have e1 : strStartsWith (c :: cs) (S "~") = false := by
        rw [S_tilde, strStartsWith_cons_cons, strStartsWith_nil]
        simp [beq_eq_false_iff_ne, h1b]
      have e2 : strStartsWith (c :: cs) (S "/") = false := by
        rw [S_slash, strStartsWith_cons_cons, strStartsWith_nil]
        simp [beq_eq_false_iff_ne, h2b]
      simp [resolve_include_path, e1, e2]

/-- Claim C7, witness for the amended theorem at concrete inputs. -/
theorem c7_resolve_amended_witness :
    resolve_include_path (S "/h") (S "/b") (S "~/x") = some (pjoin (S "/h") (S "x"))
    ∧ resolve_include_path (S "/h") (S "/b") (S "rel") = some (pjoin (S "/b") (S "rel")) := by
  constructor
  · exact (c7_resolve_amended (S "/h") (S "/b") (S "~/x")).1 '/' (S "x") (by decide)
  · exact (c7_resolve_amended (S "/h") (S "/b") (S "rel")).2.2.2 (by decide) (by decide)

/-- Claim C8, counterexample: the line `Port 0` under an open host sets
the port field to 0, which is outside the claimed 1–65535 range — the
value is parsed as a full `u16` (0–65535). -/
theorem c8_port_zero_counterexample :
    (parseDemo "Host a\nPort 0").map (fun hs => hs.map SshHost.port) = some [some 0]
    ∧ ¬ (1 ≤ 0 ∧ 0 ≤ 65535) := by
  refine ⟨by decide, by decide⟩

/-- Claim C9, counterexample: for an empty entry sequence the initial
selection is not index 0 — no selection is made at all (the default
`ListState` selection stays `none`). -/
theorem c9_empty_counterexample :
    initialSelection [] = none ∧ initialSelection [] ≠ some 0 := by
  refine ⟨by decide, by decide⟩

/-- Claim C9, amended: for a non-empty parsed entry sequence the initial
UI selection is the index of the first non-separator entry, defaulting
to index 0 when every entry is a separator; for an empty sequence no
selection is seeded (`none`), not index 0. -/
theorem c9_selection_amended :
    initialSelection [] = none
    ∧ (∀ hs, hs ≠ [] → (∀ h ∈ hs, h.is_separator = true) →
        initialSelection hs = some 0)
    ∧ (∀ hs i, positionIdx (fun h => !h.is_separator) hs = some i →
        initialSelection hs = some i) := by
  refine ⟨by decide, ?_, ?_⟩
  · intro hs hne hall
    have hpos : positionIdx (fun h => !h.is_separator) hs = none :=
      positionIdx_none_of_all _ hs (fun x hx => by simp [hall x hx])
    simp [initialSelection, hne, hpos]
  · intro hs i hp
    have hne : hs ≠ [] := positionIdx_ne_nil _ hs i hp
    simp [initialSelection, hne, hp]

/-- Claim C9, witness for the amended theorem at concrete inputs. -/
theorem c9_selection_amended_witness :
    initialSelection [demoSep] = some 0 ∧ initialSelection [demoSep, demoPlainHost] = some 1 := by
  constructor
  · exact c9_selection_amended.2.1 [demoSep] (by decide) (by decide)
  · exact c9_selection_amended.2.2 [demoSep, demoPlainHost] 1 (by decide)

/-- Claim C10 (confirmed): remove-by-name writes at most the single
target config file determined from the entry's source label; every other
file of the file system — the root file, other folders' files, included
files — is unchanged. -/
theorem c10_remove_frame (fs : FS) (w : Str) (sd : Option Str) (name q : Str)
    (hq : q ≠ remove_target w sd) :
    remove_host_from_file fs w sd name q = fs q := by
  rw [remove_host_from_file]
  cases h : fs (remove_target w sd) with
  | none => rfl
  | some content => exact writeFile_other fs _ _ q hq

/-- Claim C10, witness: removing from folder `f` leaves the root config
file untouched. -/
theorem c10_remove_frame_witness :
    remove_host_from_file fsC5 (S "/w") (some (S "f")) (S "a") (S "/w/config") =
      fsC5 (S "/w/config") :=
  c10_remove_frame fsC5 (S "/w") (some (S "f")) (S "a") (S "/w/config") (by decide)

theorem parseU16_le (v : Str) (n : Nat) (h : parseU16 v = some n) : n ≤ 65535 := by
  simp only [parseU16] at h
  generalize (match v with | '+' :: rest => rest | _ => v) = t at h
  by_cases h1 : t = []
  · rw [if_pos h1] at h
    cases h
  · rw [if_neg h1] at h
    by_cases h2 : t.all Char.isDigit = true
    · rw [if_pos h2] at h
      split at h
      · simp only [Option.some.injEq] at h
        omega
      · cases h
    · rw [if_neg h2] at h
      cases h

theorem flush_portOk (hosts : List SshHost) (cur : Option SshHost)
    (hh : ∀ h ∈ hosts, portOk h) (hc : ∀ h, cur = some h → portOk h) :
    ∀ h ∈ flush hosts cur, portOk h := by
  intro h hm
  cases cur with
  | none => exact hh h hm
  | some c =>
    rcases List.mem_append.mp hm with hA | hB
    · exact hh h hA
    · rcases List.mem_singleton.mp hB with rfl
      exact hc h rfl

theorem portOk_map_preserve (cur : Option SshHost) (f : SshHost → SshHost)
    (hpres : ∀ x, (f x).port = x.port)
    (hc : ∀ h, cur = some h → portOk h) :
    ∀ h, cur.map f = some h → portOk h := by
  intro h hm
  cases cur with
  | none => simp at hm
  | some c =>
    simp only [Option.map_some', Option.some.injEq] at hm
    intro p hp
    rw [← hm, hpres] at hp
    exact hc c rfl p hp

theorem portOk_map_port (cur : Option SshHost) (value : Str) :
    ∀ h, cur.map (fun h2 => { h2 with port := parseU16 value }) = some h → portOk h := by
  intro h hm
  cases cur with
  | none => simp at hm
  | some c =>
    simp only [Option.map_some', Option.some.injEq] at hm
    intro p hp
    rw [← hm] at hp
    exact parseU16_le value p hp

theorem portOk_append_sep (hosts1 sub : List SshHost) (d : Str)
    (h1 : ∀ h ∈ hosts1, portOk h) (h2 : ∀ h ∈ sub, portOk h) :
    ∀ h ∈ hosts1 ++ sepHost d :: sub, portOk h := by
  intro h hm
  rcases List.mem_append.mp hm with hA | hB
  · exact h1 h hA
  · rcases List.mem_cons.mp hB with rfl | hC
    · intro p hp
      simp [sepHost] at hp
    · exact h2 h hC

theorem newHost_portOk (value : Str) (src : Option Str) :
    ∀ h, some (newHost value src) = some h → portOk h := by
  intro h hm p hp
  simp only [Option.some.injEq] at hm
  rw [← hm] at hp
  simp [newHost] at hp

theorem parse_portOk (loadSub : Str → Option (List SshHost)) (fs : FS)
    (home base : Str) (src : Option Str)
    (hsub : ∀ q out, loadSub q = some out → ∀ h ∈ out, portOk h) :
    ∀ lines hosts cur, (∀ h ∈ hosts, portOk h) → (∀ h, cur = some h → portOk h) →
      ∀ out, parse loadSub fs home base src lines hosts cur = some out →
        ∀ h ∈ out, portOk h := by
  intro lines
  induction lines with
  | nil =>
    intro hosts cur hh hc out hp h hm
    rw [parse] at hp
    simp only [Option.some.injEq] at hp
    rw [← hp] at hm
    exact flush_portOk hosts cur hh hc h hm
  | cons rawLine ls ih =>
    intro hosts cur hh hc out hp h hm
    rw [parse] at hp
    split at hp
    · exact ih hosts cur hh hc out hp h hm
    · split at hp
      · exact ih hosts cur hh hc out hp h hm
      · split at hp
        · -- [k, restv] arm
          simp only [] at hp
          split at hp
          · -- include
            split at hp
            · cases hp
            · rename_i incl hres
              split at hp
              · split at hp
                · cases hp
                · rename_i sub hsubeq
                  refine ih _ _ ?_ ?_ out hp h hm
                  · exact portOk_append_sep (flush hosts cur) sub _
                      (flush_portOk hosts cur hh hc) (hsub incl sub hsubeq)
                  · exact fun h2 hh2 => nomatch hh2
              · refine ih _ _ ?_ ?_ out hp h hm
                · exact flush_portOk hosts cur hh hc
                · exact fun h2 hh2 => nomatch hh2
          · -- host
            split at hp
            · refine ih _ _ ?_ ?_ out hp h hm
              · exact flush_portOk hosts cur hh hc
              · exact newHost_portOk _ _
            · -- hostname
              split at hp
              · refine ih _ _ hh ?_ out hp h hm
                exact portOk_map_preserve cur _ (fun x => rfl) hc
              · -- user
                split at hp
                · refine ih _ _ hh ?_ out hp h hm
                  exact portOk_map_preserve cur _ (fun x => rfl) hc
                · -- port
                  split at hp
                  · refine ih _ _ hh ?_ out hp h hm
                    exact portOk_map_port cur _
                  · -- identityfile
                    split at hp
                    · refine ih _ _ hh ?_ out hp h hm
                      exact portOk_map_preserve cur _ (fun x => rfl) hc
                    · -- other keyword
                      refine ih _ _ hh ?_ out hp h hm
                      exact portOk_map_preserve cur _ (fun x => rfl) hc
        · -- no-split line
          exact ih hosts cur hh hc out hp h hm

theorem load_file_portOk (fs : FS) (home : Str) :
    ∀ fuel path out, load_file fs home fuel path = some out → ∀ h ∈ out, portOk h := by
  intro fuel
  induction fuel with
  | zero =>
    intro path out hp
    rw [load_file_zero] at hp
    cases hp
  | succ n ih =>
    intro path out hp
    rw [load_file_succ] at hp
    cases hfs : fs path with
    | none =>
      rw [hfs] at hp
      cases hp
    | some content =>
      rw [hfs] at hp
      exact parse_portOk _ fs home _ _ (fun q out2 hq => ih q out2 hq)
        (rustLines content) [] none (by simp) (fun h2 hh2 => nomatch hh2) out hp

/-- Claim C8, amended: a `port` directive under an open host parses its
value as an unsigned 16-bit integer, leaving the field unset on parse
failure and never raising an error; whenever the port field of any
parsed entry is set it lies in 0–65535 — the full `u16` range, so
`Port 0` sets port 0 rather than leaving it unset. -/
theorem c8_port_amended :
    (∀ fuel (fs : FS) (home path : Str) out,
        load_file fs home fuel path = some out →
        ∀ h ∈ out, ∀ p, h.port = some p → p ≤ 65535)
    ∧ (parseDemo "Host a\nPort notanumber").map (fun hs => hs.map SshHost.port) =
        some [none]
    ∧ (parseDemo "Host a\nPort 0").map (fun hs => hs.map SshHost.port) =
        some [some 0] := by
  refine ⟨?_, by decide, by decide⟩
  intro fuel fs home path out hp h hm
  exact load_file_portOk fs home fuel path out hp h hm

/-- Claim C8, witness for the amended theorem at a concrete parse. -/
theorem c8_port_amended_witness : 22 ≤ 65535 :=
  c8_port_amended.1 2 (demoFS "Host a\nPort 22") (S "/home/u") (S "/w/config")
    [demoHost22] (by decide) demoHost22 (by decide) 22 (by decide)

theorem removeGo_true_eq (name : Str) (M : List Str) :
    removeGo name true M =
      match M.dropWhile (fun l2 => !strStartsWith (trim l2) (S "Host ")) with
      | [] => []
      | keep :: rest => keep ++ '\n' :: removeGo name false rest := by
  induction M with
  | nil => rfl
  | cons l ls ih =>
    by_cases hl : strStartsWith (trim l) (S "Host ") = true
    · simp [removeGo, hl, List.dropWhile]
    · have hl2 : strStartsWith (trim l) (S "Host ") = false := Bool.eq_false_iff.mpr hl
      simp [removeGo, hl2, List.dropWhile, ih]

theorem removeGo_eq_spec (name : Str) :
    ∀ n L, L.length ≤ n →
      removeGo name false L = joinLines (removeSpecLines name L) := by
  intro n
  induction n with
  | zero =>
    intro L hL
    have hnil : L = [] := List.length_eq_zero.mp (Nat.le_zero.mp hL)
    subst hnil
    simp [removeGo, removeSpecLines, joinLines]
  | succ n ih =>
    intro L hL
    cases L with
    | nil => simp [removeGo, removeSpecLines, joinLines]
    | cons l ls =>
      simp only [List.length_cons, Nat.add_le_add_iff_right] at hL
      by_cases hm : trim l = S "Host " ++ name
      · have hsw : strStartsWith (trim l) (S "Host ") = true := by
          rw [hm]
          exact strStartsWith_append_self _ _
        rw [removeGo, if_pos hsw, if_pos hm, removeGo_true_eq]
        rw [removeSpecLines, if_pos hm]
        cases hdw : ls.dropWhile (fun l2 => !strStartsWith (trim l2) (S "Host ")) with
        | nil => simp [joinLines]
        | cons keep rest =>
          have hlen : rest.length ≤ n := by
            have h1 : (ls.dropWhile (fun l2 => !strStartsWith (trim l2) (S "Host "))).length ≤
                ls.length := (List.dropWhile_suffix _).length_le
            rw [hdw] at h1
            simp only [List.length_cons] at h1
            omega
          simp only [hdw]
          rw [ih rest hlen]
          simp [joinLines]
      · rw [removeSpecLines, if_neg hm]
        by_cases hsw : strStartsWith (trim l) (S "Host ") = true
        · rw [removeGo, if_pos hsw, if_neg hm, ih ls hL]
          simp [joinLines]
        · have hsw2 : strStartsWith (trim l) (S "Host ") = false := Bool.eq_false_iff.mpr hsw
          rw [removeGo, hsw2]
          simp only [Bool.false_eq_true, if_false]
          rw [ih ls hL]
          simp [joinLines]

/-- Claim C3 (confirmed): remove-by-name rewrites the file content exactly
as the claim describes — reading the block terminator "the next line that
starts with `Host `" as the code's trimmed-line test, consistently with
the trimmed exact-match that opens a block: the code's rebuild loop
coincides with the spec-worded scan `removeSpecLines` on every content
and name, and the claim's concrete example evaluates as stated. -/
theorem c3_remove_matches_spec :
    (∀ name lines, removeGo name false lines = joinLines (removeSpecLines name lines))
    ∧ (∀ name content, removeHost name content = removeHostSpec name content)
    ∧ removeHost (S "x") (S "Host x\nHostname a\nHost y\nHostname b\n") =
        S "Host y\nHostname b\n" := by
  have hmain : ∀ name lines,
      removeGo name false lines = joinLines (removeSpecLines name lines) :=
    fun name lines => removeGo_eq_spec name lines.length lines le_rfl
  refine ⟨hmain, ?_, by decide⟩
  intro name content
  rw [removeHost, removeHostSpec, hmain]

theorem S_Host_list : S "Host " = ['H', 'o', 's', 't', ' '] := by decide

theorem splitLinesCore_ne_nil (s : Str) (hs : s ≠ []) : splitLinesCore s ≠ [] := by
  cases s with
  | nil => exact absurd rfl hs
  | cons c rest =>
    by_cases hc : c = '\n'
    · simp [splitLinesCore, hc]
    · rw [splitLinesCore]
      rw [if_neg hc]
      cases splitLinesCore rest <;> simp

theorem splitLinesCore_line (l rest : Str) (hl : '\n' ∉ l) :
    splitLinesCore (l ++ '\n' :: rest) = l :: splitLinesCore rest := by
  induction l with
  | nil => simp [splitLinesCore]
  | cons c cs ih =>
    have hc : ¬ c = '\n' := fun h => hl (h ▸ List.mem_cons_self c cs)
    have hcs : '\n' ∉ cs := fun h => hl (List.mem_cons_of_mem c h)
    rw [List.cons_append, splitLinesCore, if_neg hc, ih hcs]

theorem splitLinesCore_append (c0 d : Str) :
    splitLinesCore ((c0 ++ ['\n']) ++ d) =
      splitLinesCore (c0 ++ ['\n']) ++ splitLinesCore d := by
  induction c0 with
  | nil => simp [splitLinesCore]
  | cons x xs ih =>
    by_cases hx : x = '\n'
    · subst hx
      rw [List.cons_append, List.cons_append, splitLinesCore, if_pos rfl]
      rw [splitLinesCore, if_pos rfl, ih]
      rfl
    · rw [List.cons_append, List.cons_append, splitLinesCore, if_neg hx, ih]
      have hne : splitLinesCore (xs ++ ['\n']) ≠ [] :=
        splitLinesCore_ne_nil _ (by simp)
      rw [splitLinesCore, if_neg hx]
      cases hsl : splitLinesCore (xs ++ ['\n']) with
      | nil => exact absurd hsl hne
      | cons m ms => rfl

theorem joinLines_splitLinesCore (c0 : Str) :
    joinLines (splitLinesCore (c0 ++ ['\n'])) = c0 ++ ['\n'] := by
  induction c0 with
  | nil => simp [splitLinesCore, joinLines]
  | cons x xs ih =>
    by_cases hx : x = '\n'
    · subst hx
      rw [List.cons_append, splitLinesCore, if_pos rfl]
      rw [joinLines, ih]
      rfl
    · rw [List.cons_append, splitLinesCore, if_neg hx]
      have hne : splitLinesCore (xs ++ ['\n']) ≠ [] :=
        splitLinesCore_ne_nil _ (by simp)
      cases hsl : splitLinesCore (xs ++ ['\n']) with
      | nil => exact absurd hsl hne
      | cons m ms =>
        rw [joinLines]
        have := ih
        rw [hsl, joinLines] at this
        rw [List.cons_append, ← this]

theorem getLast?_mem_str (l : Str) (x : Char) (h : l.getLast? = some x) : x ∈ l := by
  induction l with
  | nil => cases h
  | cons y ys ih =>
    cases ys with
    | nil =>
      simp only [List.getLast?_singleton, Option.some.injEq] at h
      simp [h]
    | cons z zs =>
      rw [List.getLast?_cons_cons] at h
      exact List.mem_cons_of_mem y (ih h)

theorem exists_append_of_getLast? (l : Str) (x : Char) (h : l.getLast? = some x) :
    ∃ l0, l = l0 ++ [x] := by
  induction l with
  | nil => cases h
  | cons y ys ih =>
    cases ys with
    | nil =>
      simp only [List.getLast?_singleton, Option.some.injEq] at h
      exact ⟨[], by simp [h]⟩
    | cons z zs =>
      rw [List.getLast?_cons_cons] at h
      obtain ⟨l0, hl0⟩ := ih h
      exact ⟨y :: l0, by simp [hl0]⟩

theorem stripCR_no_cr (l : Str) (h : '\r' ∉ l) : stripCR l = l := by
  rw [stripCR]
  cases hg : l.getLast? with
  | none => simp
  | some x =>
    by_cases hx : x = '\r'
    · exact absurd (getLast?_mem_str l '\r' (hx ▸ hg)) h
    · simp [hg, hx]

theorem not_mem_append_char (c : Char) (p x : Str) (hp : c ∉ p) (hx : c ∉ x) :
    c ∉ p ++ x := by
  intro hmem
  rcases List.mem_append.mp hmem with h1 | h2
  · exact hp h1
  · exact hx h2

theorem mem_splitLinesCore (s : Str) :
    ∀ l ∈ splitLinesCore s, ∀ ch ∈ l, ch ∈ s := by
  induction s with
  | nil => simp [splitLinesCore]
  | cons c rest ih =>
    intro l hl ch hch
    rw [splitLinesCore] at hl
    by_cases hc : c = '\n'
    · rw [if_pos hc] at hl
      rcases List.mem_cons.mp hl with h1 | h2
      · subst h1
        cases hch
      · exact List.mem_cons_of_mem c (ih l h2 ch hch)
    · rw [if_neg hc] at hl
      cases hsl : splitLinesCore rest with
      | nil =>
        rw [hsl] at hl
        have h1 : l = [c] := List.mem_singleton.mp hl
        subst h1
        have h2 : ch = c := List.mem_singleton.mp hch
        subst h2
        exact List.mem_cons_self _ _
      | cons m ms =>
        rw [hsl] at hl
        rcases List.mem_cons.mp hl with h1 | h2
        · subst h1
          rcases List.mem_cons.mp hch with h3 | h4
          · subst h3
            exact List.mem_cons_self _ _
          · have hmem : m ∈ splitLinesCore rest := by
              rw [hsl]
              exact List.mem_cons_self m ms
            exact List.mem_cons_of_mem c (ih m hmem ch h4)
        · have hmem : l ∈ splitLinesCore rest := by
            rw [hsl]
            exact List.mem_cons_of_mem m h2
          exact List.mem_cons_of_mem c (ih l hmem ch hch)

theorem map_id_of_forall_eq (f : Str → Str) :
    ∀ (l : List Str), (∀ x ∈ l, f x = x) → l.map f = l := by
  intro l
  induction l with
  | nil => intro _; rfl
  | cons m ms ih =>
    intro h
    rw [List.map_cons, h m (List.mem_cons_self m ms),
      ih (fun x hx => h x (List.mem_cons_of_mem m hx))]

theorem map_stripCR_id (c : Str) (hc : '\r' ∉ c) :
    (splitLinesCore c).map stripCR = splitLinesCore c :=
  map_id_of_forall_eq stripCR (splitLinesCore c)
    (fun l hl => stripCR_no_cr l (fun hr => hc (mem_splitLinesCore c l hl '\r' hr)))

theorem rustLines_no_cr (c : Str) (hc : '\r' ∉ c) :
    rustLines c = splitLinesCore c := by
  rw [rustLines, map_stripCR_id c hc]

theorem trimLeft_cons (c : Char) (cs : Str) :
    trimLeft (c :: cs) = if isWhite c then trimLeft cs else c :: cs := rfl

theorem isWhite_space : isWhite ' ' = true := by decide

theorem isWhite_H : isWhite 'H' = false := by decide

theorem isWhite_U : isWhite 'U' = false := by decide

theorem trimRight_append_nil (l r : Str) (h : trimRight r = []) :
    trimRight (l ++ r) = trimRight l := by
  induction l with
  | nil =>
    simp only [List.nil_append]
    rw [h]
    rfl
  | cons c cs ih =>
    rw [List.cons_append, trimRight, ih]
    conv_rhs => rw [trimRight]

theorem trimRight_append_ne (l r : Str) (h : trimRight r ≠ []) :
    trimRight (l ++ r) = l ++ trimRight r := by
  induction l with
  | nil => simp
  | cons c cs ih =>
    rw [List.cons_append, trimRight, ih]
    cases htr : trimRight r with
    | nil => exact absurd htr h
    | cons x xs =>
      cases cs with
      | nil => simp
      | cons y ys => simp

theorem trim_host_line (a : Str) (ha : trimRight a = a) (hne : a ≠ []) :
    trim (S "Host " ++ a) = S "Host " ++ a := by
  have e1 : S "Host " ++ a = 'H' :: (['o', 's', 't', ' '] ++ a) := by
    rw [S_Host_list]
    simp
  rw [trim, e1, trimLeft_cons, if_neg (by rw [isWhite_H]; exact Bool.false_ne_true)]
  show trimRight (['H', 'o', 's', 't', ' '] ++ a) = S "Host " ++ a
  have hra : trimRight a ≠ [] := by
    rw [ha]
    exact hne
  rw [trimRight_append_ne _ _ hra, ha, S_Host_list]

theorem startsHostn_false (t : Str) :
    strStartsWith ('H' :: 'o' :: 's' :: 't' :: 'n' :: t) (S "Host ") = false := by
  rw [S_Host_list, strStartsWith_cons_cons, strStartsWith_cons_cons,
    strStartsWith_cons_cons, strStartsWith_cons_cons, strStartsWith_cons_cons,
    strStartsWith_nil]
  decide

theorem startsU_false (t : Str) :
    strStartsWith ('U' :: t) (S "Host ") = false := by
  rw [S_Host_list, strStartsWith_cons_cons]
  have h1 : ('U' == 'H') = false := by decide
  rw [h1, Bool.false_and]

theorem S_Hostname_expand :
    S "    Hostname " =
      ' ' :: ' ' :: ' ' :: ' ' :: (['H', 'o', 's', 't', 'n', 'a', 'm', 'e'] ++ [' ']) := by
  decide

theorem S_User_expand :
    S "    User " = ' ' :: ' ' :: ' ' :: ' ' :: (['U', 's', 'e', 'r'] ++ [' ']) := by
  decide

theorem hostname_line_not_host (h : Str) :
    strStartsWith (trim (S "    Hostname " ++ h)) (S "Host ") = false := by
  have e1 : S "    Hostname " ++ h =
      ' ' :: ' ' :: ' ' :: ' ' :: (['H', 'o', 's', 't', 'n', 'a', 'm', 'e'] ++ (' ' :: h)) := by
    rw [S_Hostname_expand]
    simp
  rw [trim, e1, trimLeft_cons, if_pos isWhite_space, trimLeft_cons, if_pos isWhite_space,
    trimLeft_cons, if_pos isWhite_space, trimLeft_cons, if_pos isWhite_space,
    List.cons_append, trimLeft_cons, if_neg (by rw [isWhite_H]; exact Bool.false_ne_true)]
  show strStartsWith
    (trimRight (['H', 'o', 's', 't', 'n', 'a', 'm', 'e'] ++ (' ' :: h))) (S "Host ") = false
  by_cases hr : trimRight (' ' :: h) = []
  · rw [trimRight_append_nil _ _ hr]
    have e2 : trimRight ['H', 'o', 's', 't', 'n', 'a', 'm', 'e'] =
        ['H', 'o', 's', 't', 'n', 'a', 'm', 'e'] := by decide
    rw [e2]
    exact startsHostn_false ['a', 'm', 'e']
  · rw [trimRight_append_ne _ _ hr]
    exact startsHostn_false ('a' :: 'm' :: 'e' :: trimRight (' ' :: h))

theorem user_line_not_host (u : Str) :
    strStartsWith (trim (S "    User " ++ u)) (S "Host ") = false := by
  have e1 : S "    User " ++ u =
      ' ' :: ' ' :: ' ' :: ' ' :: (['U', 's', 'e', 'r'] ++ (' ' :: u)) := by
    rw [S_User_expand]
    simp
  rw [trim, e1, trimLeft_cons, if_pos isWhite_space, trimLeft_cons, if_pos isWhite_space,
    trimLeft_cons, if_pos isWhite_space, trimLeft_cons, if_pos isWhite_space,
    List.cons_append, trimLeft_cons, if_neg (by rw [isWhite_U]; exact Bool.false_ne_true)]
  show strStartsWith (trimRight (['U', 's', 'e', 'r'] ++ (' ' :: u))) (S "Host ") = false
  by_cases hr : trimRight (' ' :: u) = []
  · rw [trimRight_append_nil _ _ hr]
    have e2 : trimRight ['U', 's', 'e', 'r'] = ['U', 's', 'e', 'r'] := by decide
    rw [e2]
    exact startsU_false ['s', 'e', 'r']
  · rw [trimRight_append_ne _ _ hr]
    exact startsU_false ('s' :: 'e' :: 'r' :: trimRight (' ' :: u))

theorem removeGo_skip_all (name : Str) (M : List Str)
    (hM : ∀ l ∈ M, strStartsWith (trim l) (S "Host ") = false) :
    removeGo name true M = [] := by
  induction M with
  | nil => rfl
  | cons l ls ih =>
    have h1 := hM l (List.mem_cons_self l ls)
    rw [removeGo, h1]
    simp only [Bool.false_eq_true, if_false]
    exact ih (fun x hx => hM x (List.mem_cons_of_mem l hx))

theorem removeGo_copy (name : Str) (L M : List Str)
    (hL : ∀ l ∈ L, ¬ trim l = S "Host " ++ name) :
    removeGo name false (L ++ M) = joinLines L ++ removeGo name false M := by
  induction L with
  | nil => simp [joinLines]
  | cons l ls ih =>
    have h1 := hL l (List.mem_cons_self l ls)
    have hls : ∀ x ∈ ls, ¬ trim x = S "Host " ++ name :=
      fun x hx => hL x (List.mem_cons_of_mem l hx)
    rw [List.cons_append, removeGo]
    by_cases hsw : strStartsWith (trim l) (S "Host ") = true
    · rw [if_pos hsw, if_neg h1, ih hls, joinLines]
      simp
    · rw [if_neg hsw, ih hls, joinLines]
      simp

theorem removeGo_block (a h u : Str) (ha : trimRight a = a) (hne : a ≠ []) :
    removeGo a false [S "Host " ++ a, S "    Hostname " ++ h, S "    User " ++ u] = [] := by
  have ht := trim_host_line a ha hne
  rw [removeGo, ht, if_pos (strStartsWith_append_self (S "Host ") a), if_pos rfl]
  refine removeGo_skip_all a _ ?_
  intro l hl
  rcases List.mem_cons.mp hl with h1 | h2
  · rw [h1]
    exact hostname_line_not_host h
  · have h3 := List.mem_singleton.mp h2
    rw [h3]
    exact user_line_not_host u

theorem S_nlHostname : S "\n    Hostname " = '\n' :: S "    Hostname " := by decide

theorem S_nlUser : S "\n    User " = '\n' :: S "    User " := by decide

theorem stripCR_nil : stripCR [] = [] := rfl

theorem startsNil_false : strStartsWith [] (S "Host ") = false := by
  rw [S_Host_list]
  rfl

theorem appendContent_nil (b : Str) : appendContent [] b = b := by
  simp [appendContent]

theorem appendContent_ne (c b : Str) (hc : c ≠ []) :
    appendContent c b = c ++ '\n' :: b := by
  simp [appendContent, hc]

theorem remove_target_folder (w f : Str) (hf : f ≠ S "ssh") :
    remove_target w (some f) = targetPath w f := by
  simp [remove_target, hf, targetPath]

theorem splitLinesCore_hostBlock (a h u : Str)
    (hna : '\n' ∉ a) (hnh : '\n' ∉ h) (hnu : '\n' ∉ u) :
    splitLinesCore (hostBlock a h u [] [] []) =
      [S "Host " ++ a, S "    Hostname " ++ h, S "    User " ++ u] := by
  have e : hostBlock a h u [] [] [] =
      (S "Host " ++ a) ++ '\n' ::
        ((S "    Hostname " ++ h) ++ '\n' :: ((S "    User " ++ u) ++ '\n' :: [])) := by
    rw [hostBlock, S_nlHostname, S_nlUser]
    simp
  rw [e]
  rw [splitLinesCore_line _ _ (not_mem_append_char '\n' _ a (by decide) hna)]
  rw [splitLinesCore_line _ _ (not_mem_append_char '\n' _ h (by decide) hnh)]
  rw [splitLinesCore_line _ _ (not_mem_append_char '\n' _ u (by decide) hnu)]
  rfl

theorem removeHost_hostBlock (a h u : Str)
    (hna : '\n' ∉ a) (hnh : '\n' ∉ h) (hnu : '\n' ∉ u)
    (hra : '\r' ∉ a) (hrh : '\r' ∉ h) (hru : '\r' ∉ u)
    (ha : trimRight a = a) (hne : a ≠ []) :
    removeHost a (hostBlock a h u [] [] []) = [] := by
  rw [removeHost, rustLines, splitLinesCore_hostBlock a h u hna hnh hnu]
  rw [List.map_cons, List.map_cons, List.map_cons, List.map_nil]
  rw [stripCR_no_cr _ (not_mem_append_char '\r' _ a (by decide) hra)]
  rw [stripCR_no_cr _ (not_mem_append_char '\r' _ h (by decide) hrh)]
  rw [stripCR_no_cr _ (not_mem_append_char '\r' _ u (by decide) hru)]
  exact removeGo_block a h u ha hne

theorem removeHost_append_block (c0 a h u : Str) (hrc : '\r' ∉ c0 ++ ['\n'])
    (hnomatch : ∀ l ∈ splitLinesCore (c0 ++ ['\n']), ¬ trim l = S "Host " ++ a)
    (hna : '\n' ∉ a) (hnh : '\n' ∉ h) (hnu : '\n' ∉ u)
    (hra : '\r' ∉ a) (hrh : '\r' ∉ h) (hru : '\r' ∉ u)
    (ha : trimRight a = a) (hne : a ≠ []) :
    removeHost a ((c0 ++ ['\n']) ++ '\n' :: hostBlock a h u [] [] []) =
      (c0 ++ ['\n']) ++ ['\n'] := by
  rw [removeHost, rustLines, splitLinesCore_append c0 ('\n' :: hostBlock a h u [] [] [])]
  rw [show splitLinesCore ('\n' :: hostBlock a h u [] [] []) =
      [] :: splitLinesCore (hostBlock a h u [] [] []) from by
    rw [splitLinesCore]
    rw [if_pos rfl]]
  rw [splitLinesCore_hostBlock a h u hna hnh hnu]
  rw [List.map_append, map_stripCR_id _ hrc]
  rw [List.map_cons, List.map_cons, List.map_cons, List.map_cons, List.map_nil]
  rw [stripCR_nil]
  rw [stripCR_no_cr _ (not_mem_append_char '\r' _ a (by decide) hra)]
  rw [stripCR_no_cr _ (not_mem_append_char '\r' _ h (by decide) hrh)]
  rw [stripCR_no_cr _ (not_mem_append_char '\r' _ u (by decide) hru)]
  rw [removeGo_copy a _ _ hnomatch]
  rw [joinLines_splitLinesCore c0]
  rw [removeGo]
  rw [show trim ([] : Str) = [] from rfl, startsNil_false]
  simp only [Bool.false_eq_true, if_false]
  rw [removeGo_block a h u ha hne]
  rfl

theorem remove_host_from_file_other (fs : FS) (w : Str) (sd : Option Str)
    (name q : Str) (hq : q ≠ remove_target w sd) :
    remove_host_from_file fs w sd name q = fs q := by
  rw [remove_host_from_file]
  cases h : fs (remove_target w sd) with
  | none => rfl
  | some content => exact writeFile_other fs _ _ q hq

/-- Claim C2, counterexample: appending a host (no optional fields) to a
non-empty folder file and removing it by name does NOT restore the
pre-append byte content — the separating blank line written by the
append survives the removal. -/
theorem c2_roundtrip_counterexample :
    fsC2 (S "/w/f/config") = some (S "Host y\nHostname b\n")
    ∧ roundTrip fsC2 (S "/w") (S "f") (S "x") (S "hh") (S "uu") (S "/w/f/config") =
        some (S "Host y\nHostname b\n\n")
    ∧ S "Host y\nHostname b\n\n" ≠ S "Host y\nHostname b\n" := by
  refine ⟨by decide, by decide, by decide⟩

/-- Claim C2, amended: the round trip restores the file only when the
pre-append file was empty: for a newline- and CR-free alias (non-empty,
no trailing whitespace), hostname and user, with a folder label other
than the literal `ssh` (which would re-route the removal to the root
file), appending to an empty folder file and removing by name yields the
empty file again; for a non-empty, newline-terminated, CR-free
pre-content none of whose lines trims to `Host <alias>`, the result is
the pre-append content plus one surviving blank line.  And whenever the
folder file already exists before the append, the round trip leaves
every other path unchanged — in particular the root file, so an
injected `Include` line there persists and is not removed (registration
is skipped for an existing file, and removal writes only the target
file). -/
theorem c2_roundtrip_amended :
    (∀ (fs : FS) (w f a h u : Str), f ≠ S "ssh" → fs (targetPath w f) = some [] →
      '\n' ∉ a → '\n' ∉ h → '\n' ∉ u → '\r' ∉ a → '\r' ∉ h → '\r' ∉ u →
      trimRight a = a → a ≠ [] →
      roundTrip fs w f a h u (targetPath w f) = some [])
    ∧ (∀ (fs : FS) (w f a h u c : Str), f ≠ S "ssh" → fs (targetPath w f) = some c →
      c.getLast? = some '\n' → '\r' ∉ c →
      (∀ l ∈ rustLines c, ¬ trim l = S "Host " ++ a) →
      '\n' ∉ a → '\n' ∉ h → '\n' ∉ u → '\r' ∉ a → '\r' ∉ h → '\r' ∉ u →
      trimRight a = a → a ≠ [] →
      roundTrip fs w f a h u (targetPath w f) = some (c ++ ['\n']))
    ∧ (∀ (fs : FS) (w f a h u q : Str), f ≠ S "ssh" →
      fs (targetPath w f) ≠ none → q ≠ targetPath w f →
      roundTrip fs w f a h u q = fs q) := by
  refine ⟨?_, ?_, ?_⟩
  · intro fs w f a h u hf hfs hna hnh hnu hra hrh hru ha hne
    rw [roundTrip, save_host_of_exists fs w f a h u [] [] [] [] hfs, appendContent_nil]
    simp only [remove_host_from_file, remove_target_folder w f hf, writeFile_same]
    rw [removeHost_hostBlock a h u hna hnh hnu hra hrh hru ha hne]
  · intro fs w f a h u c hf hfs hlast hrc hnomatch hna hnh hnu hra hrh hru ha hne
    obtain ⟨c0, rfl⟩ := exists_append_of_getLast? c '\n' hlast
    rw [roundTrip, save_host_of_exists fs w f a h u [] [] [] _ hfs,
      appendContent_ne _ _ (by simp)]
    simp only [remove_host_from_file, remove_target_folder w f hf, writeFile_same]
    have hnomatch2 : ∀ l ∈ splitLinesCore (c0 ++ ['\n']), ¬ trim l = S "Host " ++ a := by
      rw [← rustLines_no_cr _ hrc]
      exact hnomatch
    rw [removeHost_append_block c0 a h u hrc hnomatch2 hna hnh hnu hra hrh hru ha hne]
  · intro fs w f a h u q hf hex hq
    cases hc : fs (targetPath w f) with
    | none => exact absurd hc hex
    | some c =>
      rw [roundTrip, save_host_of_exists fs w f a h u [] [] [] c hc]
      rw [remove_host_from_file_other _ _ _ _ _
        (by rw [remove_target_folder w f hf]; exact hq)]
      exact writeFile_other fs _ _ q hq

/-- Claim C2, witness for the amended theorem at concrete inputs. -/
theorem c2_roundtrip_amended_witness :
    roundTrip fsC2e (S "/w") (S "f") (S "x") (S "hh") (S "uu")
        (targetPath (S "/w") (S "f")) = some []
    ∧ roundTrip fsC2 (S "/w") (S "f") (S "x") (S "hh") (S "uu")
        (targetPath (S "/w") (S "f")) = some (S "Host y\nHostname b\n" ++ ['\n'])
    ∧ roundTrip fsC2 (S "/w") (S "f") (S "x") (S "hh") (S "uu") (S "/w/config") =
        some (S "Include /w/f/config\n") := by
  refine ⟨?_, ?_, ?_⟩
  · exact c2_roundtrip_amended.1 fsC2e (S "/w") (S "f") (S "x") (S "hh") (S "uu")
      (by decide) (by decide) (by decide) (by decide) (by decide) (by decide)
      (by decide) (by decide) (by decide) (by decide)
  · exact c2_roundtrip_amended.2.1 fsC2 (S "/w") (S "f") (S "x") (S "hh") (S "uu")
      (S "Host y\nHostname b\n") (by decide) (by decide) (by decide) (by decide)
      (by decide) (by decide) (by decide) (by decide) (by decide) (by decide)
      (by decide) (by decide) (by decide)
  · rw [c2_roundtrip_amended.2.2 fsC2 (S "/w") (S "f") (S "x") (S "hh") (S "uu")
      (S "/w/config") (by decide) (by decide) (by decide)]
    decide
